import Mathlib

/-!
Verification of the curve-analysis routines in the CHPC-Guide repository
(docs/examples/qe_band_analysis.py, qe_phonon_analysis.py, qe_pdos_analysis.py,
qe_pdos_simple.py, qe_soc_analysis.py).

The scripts operate on numeric arrays loaded from whitespace-delimited text
files.  We embed them shallowly: arrays become `List ℚ` (exact arithmetic in
place of IEEE floats), 2-D tables become `List (List ℚ)`, numpy reductions that
raise on empty input return `Option`, and an uncaught Python exception is
modelled as `Except.error ()`.  The file system is a map from file names to an
optional parsed table (`none` = absent or unparsable, i.e. `np.loadtxt` raises).
-/

/-- Indexing with default 0, the way the scripts read `arr[i]` on in-range
indices (all statements restrict indices to the array length). -/
def nth (l : List ℚ) (i : ℕ) : ℚ :=
  l.getD i 0

/-- Model of `np.max`: `none` on the empty array (numpy raises on an empty
reduction), otherwise the fold of `max` over the elements. -/
def npMax : List ℚ → Option ℚ
  | [] => none
  | x :: xs => some (xs.foldl max x)

/-- Model of `np.min`. -/
def npMin : List ℚ → Option ℚ
  | [] => none
  | x :: xs => some (xs.foldl min x)

/-- Model of `np.mean`: sum of the elements over their count. -/
def npMean (l : List ℚ) : ℚ :=
  l.sum / l.length

/-- Loop of `np.argmax`: carries the best value, its index, and the index of
the next element; a later element displaces the best only when strictly
greater, so the first occurrence of the maximum wins. -/
def argmaxGo : List ℚ → ℚ → ℕ → ℕ → ℕ
  | [], _, bi, _ => bi
  | a :: as, b, bi, i => if b < a then argmaxGo as a i (i + 1) else argmaxGo as b bi (i + 1)

/-- Model of `np.argmax`: `none` on the empty array (numpy raises), otherwise
the first index holding the maximum value. -/
def np_argmax : List ℚ → Option ℕ
  | [] => none
  | y :: ys => some (argmaxGo ys y 0 1)

/-- Loop of `np.argmin`, mirroring `argmaxGo`. -/
def argminGo : List ℚ → ℚ → ℕ → ℕ → ℕ
  | [], _, bi, _ => bi
  | a :: as, b, bi, i => if a < b then argminGo as a i (i + 1) else argminGo as b bi (i + 1)

/-- Model of `np.argmin`. -/
def np_argmin : List ℚ → Option ℕ
  | [] => none
  | y :: ys => some (argminGo ys y 0 1)

/-- Model of `np.trapz(y, x)`: composite trapezoidal rule over consecutive
sample pairs; arrays with fewer than two points integrate to 0, as in numpy. -/
def trapz : List ℚ → List ℚ → ℚ
  | y1 :: y2 :: ys, x1 :: x2 :: xs => (x2 - x1) * (y1 + y2) / 2 + trapz (y2 :: ys) (x2 :: xs)
  | _, _ => 0

/-- A file system for the loaders: `none` means `np.loadtxt` fails on that
name (missing file or unparsable contents), `some` is the parsed table. -/
abbrev FileSys : Type :=
  String → Option (List (List ℚ))

/-! ### Basic indexing lemmas -/

theorem nth_nil (i : ℕ) : nth [] i = 0 := by
  cases i <;> rfl

theorem nth_cons_zero (a : ℚ) (l : List ℚ) : nth (a :: l) 0 = a := rfl

theorem nth_cons_succ (a : ℚ) (l : List ℚ) (i : ℕ) : nth (a :: l) (i + 1) = nth l i := rfl

theorem nth_drop (l : List ℚ) (i j : ℕ) : nth (l.drop i) j = nth l (i + j) := by
  induction i generalizing l with
  | zero => simp [nth]
  | succ n ih =>
    cases l with
    | nil => simp [nth_nil]
    | cons a as =>
      have h1 : (a :: as).drop (n + 1) = as.drop n := rfl
      have h2 : n + 1 + j = (n + j) + 1 := by omega
      rw [h1, h2, nth_cons_succ, ih]

theorem nth_take (l : List ℚ) (i j : ℕ) (h : j < i) : nth (l.take i) j = nth l j := by
  induction l generalizing i j with
  | nil => simp [nth_nil]
  | cons a as ih =>
    cases i with
    | zero => omega
    | succ n =>
      cases j with
      | zero => rfl
      | succ m =>
        have h1 : (a :: as).take (n + 1) = a :: as.take n := rfl
        rw [h1, nth_cons_succ, nth_cons_succ, ih]
        omega

theorem nth_map_abs (l : List ℚ) (i : ℕ) (h : i < l.length) :
    nth (l.map (fun e => |e|)) i = |nth l i| := by
  induction l generalizing i with
  | nil => simp at h
  | cons a as ih =>
    cases i with
    | zero => rfl
    | succ n =>
      have h1 : (a :: as).map (fun e => |e|) = |a| :: as.map (fun e => |e|) := rfl
      rw [h1, nth_cons_succ, nth_cons_succ, ih]
      simpa using h

theorem nth_zipWith_mul (x y : List ℚ) (i : ℕ) (hx : i < x.length) (hy : i < y.length) :
    nth (List.zipWith (fun a b => a * b) x y) i = nth x i * nth y i := by
  induction x generalizing y i with
  | nil => simp at hx
  | cons a as ih =>
    cases y with
    | nil => simp at hy
    | cons b bs =>
      cases i with
      | zero => rfl
      | succ n =>
        have h1 : List.zipWith (fun a b => a * b) (a :: as) (b :: bs) =
            a * b :: List.zipWith (fun a b => a * b) as bs := rfl
        rw [h1, nth_cons_succ, nth_cons_succ, nth_cons_succ, ih]
        · simpa using hx
        · simpa using hy

/-! ### Fold lemmas for `npMax` / `npMin` -/

theorem le_foldl_max (l : List ℚ) (b : ℚ) : b ≤ l.foldl max b := by
  induction l generalizing b with
  | nil => simp
  | cons a as ih => exact le_trans (le_max_left b a) (ih (max b a))

theorem foldl_max_mem (l : List ℚ) (b : ℚ) : l.foldl max b = b ∨ l.foldl max b ∈ l := by
  induction l generalizing b with
  | nil => left; rfl
  | cons a as ih =>
    rcases ih (max b a) with h | h
    · rcases max_choice b a with hm | hm
      · left; rw [List.foldl_cons, h, hm]
      · right; rw [List.foldl_cons, h, hm]; exact List.mem_cons_self a as
    · right; exact List.mem_cons_of_mem a h

theorem mem_le_foldl_max (l : List ℚ) (b a : ℚ) (h : a ∈ l) : a ≤ l.foldl max b := by
  induction l generalizing b with
  | nil => cases h
  | cons c cs ih =>
    rcases List.mem_cons.1 h with rfl | h2
    · exact le_trans (le_max_right b a) (le_foldl_max cs (max b a))
    · exact ih (max b c) h2

theorem npMax_spec (l : List ℚ) (h : l ≠ []) :
    ∃ m, npMax l = some m ∧ m ∈ l ∧ ∀ a ∈ l, a ≤ m := by
  cases l with
  | nil => exact absurd rfl h
  | cons x xs =>
    refine ⟨xs.foldl max x, rfl, ?_, ?_⟩
    · rcases foldl_max_mem xs x with h1 | h1
      · rw [h1]; exact List.mem_cons_self x xs
      · exact List.mem_cons_of_mem x h1
    · intro a ha
      rcases List.mem_cons.1 ha with rfl | ha2
      · exact le_foldl_max xs a
      · exact mem_le_foldl_max xs x a ha2

theorem foldl_min_le (l : List ℚ) (b : ℚ) : l.foldl min b ≤ b := by
  induction l generalizing b with
  | nil => simp
  | cons a as ih => exact le_trans (ih (min b a)) (min_le_left b a)

theorem foldl_min_mem (l : List ℚ) (b : ℚ) : l.foldl min b = b ∨ l.foldl min b ∈ l := by
  induction l generalizing b with
  | nil => left; rfl
  | cons a as ih =>
    rcases ih (min b a) with h | h
    · rcases min_choice b a with hm | hm
      · left; rw [List.foldl_cons, h, hm]
      · right; rw [List.foldl_cons, h, hm]; exact List.mem_cons_self a as
    · right; exact List.mem_cons_of_mem a h

theorem foldl_min_le_mem (l : List ℚ) (b a : ℚ) (h : a ∈ l) : l.foldl min b ≤ a := by
  induction l generalizing b with
  | nil => cases h
  | cons c cs ih =>
    rcases List.mem_cons.1 h with rfl | h2
    · exact le_trans (foldl_min_le cs (min b a)) (min_le_right b a)
    · exact ih (min b c) h2

theorem npMin_spec (l : List ℚ) (h : l ≠ []) :
    ∃ m, npMin l = some m ∧ m ∈ l ∧ ∀ a ∈ l, m ≤ a := by
  cases l with
  | nil => exact absurd rfl h
  | cons x xs =>
    refine ⟨xs.foldl min x, rfl, ?_, ?_⟩
    · rcases foldl_min_mem xs x with h1 | h1
      · rw [h1]; exact List.mem_cons_self x xs
      · exact List.mem_cons_of_mem x h1
    · intro a ha
      rcases List.mem_cons.1 ha with rfl | ha2
      · exact foldl_min_le xs a
      · exact foldl_min_le_mem xs x a ha2

/-! ### Specification of the `np.argmax` / `np.argmin` loops

The loop invariant: the best-so-far value `b` sits at index `bi`, every index
already scanned holds a value `≤ b`, and every index before `bi` holds a value
strictly below `b` (first occurrence). -/

theorem argmaxGo_spec (rest : List ℚ) : ∀ (L : List ℚ) (b : ℚ) (bi i : ℕ),
    L.drop i = rest → bi < i → i ≤ L.length → nth L bi = b →
    (∀ k, k < i → nth L k ≤ b) → (∀ k, k < bi → nth L k < b) →
    argmaxGo rest b bi i < L.length ∧
    (∀ k, k < L.length → nth L k ≤ nth L (argmaxGo rest b bi i)) ∧
    (∀ k, k < argmaxGo rest b bi i → nth L k < nth L (argmaxGo rest b bi i)) := by
  induction rest with
  | nil =>
    intro L b bi i hdrop hbi hi hval hle hlt
    have hlen : i = L.length := le_antisymm hi (List.drop_eq_nil_iff.mp hdrop)
    have hgo : argmaxGo [] b bi i = bi := rfl
    rw [hgo]
    refine ⟨by omega, ?_, ?_⟩
    · intro k hk
      rw [hval]
      exact hle k (by omega)
    · intro k hk
      rw [hval]
      exact hlt k hk
  | cons a as ih =>
    intro L b bi i hdrop hbi hi hval hle hlt
    have hiL : i < L.length := by
      by_contra hcon
      have : L.drop i = [] := List.drop_eq_nil_of_le (by omega)
      rw [this] at hdrop
      exact List.cons_ne_nil a as hdrop.symm
    have ha : nth L i = a := by
      have h0 : nth (L.drop i) 0 = nth L (i + 0) := nth_drop L i 0
      rw [hdrop] at h0
      simpa using h0.symm
    have has : L.drop (i + 1) = as := by
      have h1 : (L.drop i).drop 1 = L.drop (i + 1) := List.drop_drop 1 i L
      rw [hdrop] at h1
      exact h1.symm
    have hgo : argmaxGo (a :: as) b bi i =
        if b < a then argmaxGo as a i (i + 1) else argmaxGo as b bi (i + 1) := rfl
    rw [hgo]
    by_cases hba : b < a
    · rw [if_pos hba]
      refine ih L a i (i + 1) has (by omega) (by omega) ha ?_ ?_
      · intro k hk
        rcases Nat.lt_succ_iff_lt_or_eq.mp hk with hk2 | rfl
        · exact le_trans (hle k hk2) (le_of_lt hba)
        · rw [ha]
      · intro k hk
        exact lt_of_le_of_lt (hle k hk) hba
    · rw [if_neg hba]
      refine ih L b bi (i + 1) has (by omega) (by omega) hval ?_ hlt
      intro k hk
      rcases Nat.lt_succ_iff_lt_or_eq.mp hk with hk2 | rfl
      · exact hle k hk2
      · rw [ha]; exact le_of_not_lt hba

theorem np_argmax_spec (l : List ℚ) (j : ℕ) (h : np_argmax l = some j) :
    j < l.length ∧ (∀ k, k < l.length → nth l k ≤ nth l j) ∧
    (∀ k, k < j → nth l k < nth l j) := by
  cases l with
  | nil => simp [np_argmax] at h
  | cons y ys =>
    have hj : argmaxGo ys y 0 1 = j := by
      have : np_argmax (y :: ys) = some (argmaxGo ys y 0 1) := rfl
      rw [this] at h
      exact Option.some_injective _ h
    rw [← hj]
    refine argmaxGo_spec ys (y :: ys) y 0 1 rfl (by omega) ?_ rfl ?_ ?_
    · simp
    · intro k hk
      have : k = 0 := by omega
      subst this
      exact le_refl _
    · intro k hk
      omega

theorem argminGo_spec (rest : List ℚ) : ∀ (L : List ℚ) (b : ℚ) (bi i : ℕ),
    L.drop i = rest → bi < i → i ≤ L.length → nth L bi = b →
    (∀ k, k < i → b ≤ nth L k) → (∀ k, k < bi → b < nth L k) →
    argminGo rest b bi i < L.length ∧
    (∀ k, k < L.length → nth L (argminGo rest b bi i) ≤ nth L k) ∧
    (∀ k, k < argminGo rest b bi i → nth L (argminGo rest b bi i) < nth L k) := by
  induction rest with
  | nil =>
    intro L b bi i hdrop hbi hi hval hle hlt
    have hlen : i = L.length := le_antisymm hi (List.drop_eq_nil_iff.mp hdrop)
    have hgo : argminGo [] b bi i = bi := rfl
    rw [hgo]
    refine ⟨by omega, ?_, ?_⟩
    · intro k hk
      rw [hval]
      exact hle k (by omega)
    · intro k hk
      rw [hval]
      exact hlt k hk
  | cons a as ih =>
    intro L b bi i hdrop hbi hi hval hle hlt
    have hiL : i < L.length := by
      by_contra hcon
      have : L.drop i = [] := List.drop_eq_nil_of_le (by omega)
      rw [this] at hdrop
      exact List.cons_ne_nil a as hdrop.symm
    have ha : nth L i = a := by
      have h0 : nth (L.drop i) 0 = nth L (i + 0) := nth_drop L i 0
      rw [hdrop] at h0
      simpa using h0.symm
    have has : L.drop (i + 1) = as := by
      have h1 : (L.drop i).drop 1 = L.drop (i + 1) := List.drop_drop 1 i L
      rw [hdrop] at h1
      exact h1.symm
    have hgo : argminGo (a :: as) b bi i =
        if a < b then argminGo as a i (i + 1) else argminGo as b bi (i + 1) := rfl
    rw [hgo]
    by_cases hab : a < b
    · rw [if_pos hab]
      refine ih L a i (i + 1) has (by omega) (by omega) ha ?_ ?_
      · intro k hk
        rcases Nat.lt_succ_iff_lt_or_eq.mp hk with hk2 | rfl
        · exact le_trans (le_of_lt hab) (hle k hk2)
        · rw [ha]
      · intro k hk
        exact lt_of_lt_of_le hab (hle k hk)
    · rw [if_neg hab]
      refine ih L b bi (i + 1) has (by omega) (by omega) hval ?_ hlt
      intro k hk
      rcases Nat.lt_succ_iff_lt_or_eq.mp hk with hk2 | rfl
      · exact hle k hk2
      · rw [ha]; exact le_of_not_lt hab

theorem np_argmin_spec (l : List ℚ) (j : ℕ) (h : np_argmin l = some j) :
    j < l.length ∧ (∀ k, k < l.length → nth l j ≤ nth l k) ∧
    (∀ k, k < j → nth l j < nth l k) := by
  cases l with
  | nil => simp [np_argmin] at h
  | cons y ys =>
    have hj : argminGo ys y 0 1 = j := by
      have : np_argmin (y :: ys) = some (argminGo ys y 0 1) := rfl
      rw [this] at h
      exact Option.some_injective _ h
    rw [← hj]
    refine argminGo_spec ys (y :: ys) y 0 1 rfl (by omega) ?_ rfl ?_ ?_
    · simp
    · intro k hk
      have : k = 0 := by omega
      subst this
      exact le_refl _
    · intro k hk
      omega

/-! ### The trapezoidal rule as an explicit index sum -/

/-- The `i`-th trapezoid of `np.trapz(y, x)` written with explicit indices. -/
def trapzTerm (x y : List ℚ) (i : ℕ) : ℚ :=
  (nth x (i + 1) - nth x i) * (nth y i + nth y (i + 1)) / 2

theorem trapz_eq_sum : ∀ (y x : List ℚ), y.length = x.length →
    trapz y x = ∑ i ∈ Finset.range (x.length - 1), trapzTerm x y i := by
  intro y x
  induction x generalizing y with
  | nil =>
    intro h
    have hy : y = [] := List.length_eq_zero.mp h
    subst hy
    simp [trapz]
  | cons x1 xs ih =>
    intro h
    cases xs with
    | nil =>
      cases y with
      | nil => simp at h
      | cons y1 ys =>
        have hys : ys = [] := by
          have := h
          simpa using this
        subst hys
        simp [trapz]
    | cons x2 xs2 =>
      cases y with
      | nil => simp at h
      | cons y1 ys =>
        cases ys with
        | nil => simp at h
        | cons y2 ys2 =>
          have hlen : (y2 :: ys2).length = (x2 :: xs2).length := by
            simpa using h
          have hT : trapz (y1 :: y2 :: ys2) (x1 :: x2 :: xs2) =
              (x2 - x1) * (y1 + y2) / 2 + trapz (y2 :: ys2) (x2 :: xs2) := rfl
          have hn : (x1 :: x2 :: xs2).length - 1 = ((x2 :: xs2).length - 1) + 1 := by
            simp
          rw [hT, ih (y2 :: ys2) hlen, hn, Finset.sum_range_succ']
          have hshift : ∀ i, trapzTerm (x1 :: x2 :: xs2) (y1 :: y2 :: ys2) (i + 1) =
              trapzTerm (x2 :: xs2) (y2 :: ys2) i := by
            intro i
            simp only [trapzTerm, nth_cons_succ]
          have h0 : trapzTerm (x1 :: x2 :: xs2) (y1 :: y2 :: ys2) 0 =
              (x2 - x1) * (y1 + y2) / 2 := by
            simp only [trapzTerm, nth_cons_succ, nth_cons_zero]
          rw [Finset.sum_congr rfl (fun i _ => hshift i), h0]
          ring

/-! ### qe_band_analysis.py -/

namespace qe_band_analysis

/-- `read_band_structure`: guarded loader; on a load failure the bare
`except:` returns the `(None, None)` sentinel, modelled as `none`.  On success
column 0 is the k-point axis and the remaining columns are the band energies. -/
def read_band_structure (fs : FileSys) (filename : String) :
    Option (List ℚ × List (List ℚ)) :=
  match fs filename with
  | some data => some (data.map (fun r => nth r 0), data.map (fun r => r.drop 1))
  | none => none

/-- All entries of `energies[:, :split]`: the first `split` columns of every
row, flattened the way `np.max` flattens its argument. -/
def sliceBelow (energies : List (List ℚ)) (split : ℕ) : List ℚ :=
  (energies.map (fun row => row.take split)).flatten

/-- All entries of `energies[:, split:]`. -/
def sliceFrom (energies : List (List ℚ)) (split : ℕ) : List ℚ :=
  (energies.map (fun row => row.drop split)).flatten

/-- The gap computation of `analyze_band_gap_from_bands` with the split index
as a parameter: `vb_max = np.max(energies[:, :split])`,
`cb_min = np.min(energies[:, split:])`, gap `cb_min - vb_max`; `none` models
the `ValueError` numpy raises when either reduction is over an empty slice. -/
def bandGapSplit (energies : List (List ℚ)) (split : ℕ) : Option ℚ :=
  match npMax (sliceBelow energies split), npMin (sliceFrom energies split) with
  | some vb_max, some cb_min => some (cb_min - vb_max)
  | _, _ => none

/-- `analyze_band_gap_from_bands`: the source hardcodes the split at column
20 ("Assuming first 20 bands are valence"). -/
def analyze_band_gap_from_bands (energies : List (List ℚ)) : Option ℚ :=
  bandGapSplit energies 20

end qe_band_analysis

/-! ### qe_phonon_analysis.py -/

namespace qe_phonon_analysis

/-- `read_phonon_dos`: guarded loader returning the frequency and DOS columns,
`none` for the `(None, None)` sentinel on failure. -/
def read_phonon_dos (fs : FileSys) (filename : String) : Option (List ℚ × List ℚ) :=
  match fs filename with
  | some data => some (data.map (fun r => nth r 0), data.map (fun r => nth r 1))
  | none => none

/-- `read_phonon_modes`: guarded loader for the q-point axis plus one column
per phonon branch. -/
def read_phonon_modes (fs : FileSys) (filename : String) :
    Option (List ℚ × List (List ℚ)) :=
  match fs filename with
  | some data => some (data.map (fun r => nth r 0), data.map (fun r => r.drop 1))
  | none => none

/-- `analyze_phonon_properties`: `total_states = np.trapz(dos, frequency)`,
`max_freq = np.max(frequency)` (raises on an empty array, hence `Option`), and
`avg_freq = np.trapz(frequency * dos, frequency) / total_states`.  The source
divides without guarding `total_states = 0`; in floats that division yields a
non-signalling nan/inf, which this exact-arithmetic model renders as the ℚ
junk value of division by zero.  Returns `(max_freq, avg_freq, total_states)`
in the source's order. -/
def analyze_phonon_properties (frequency dos : List ℚ) : Option (ℚ × ℚ × ℚ) :=
  let total_states := trapz dos frequency
  match npMax frequency with
  | none => none
  | some max_freq =>
    some (max_freq,
      trapz (List.zipWith (fun a b => a * b) frequency dos) frequency / total_states,
      total_states)

end qe_phonon_analysis

/-! ### qe_pdos_analysis.py -/

namespace qe_pdos_analysis

/-- `data_loader`: guarded loader (catches `FileNotFoundError` and any other
`Exception`), returning energy and PDOS columns or the `none` sentinel. -/
def data_loader (fs : FileSys) (fname : String) : Option (List ℚ × List ℚ) :=
  match fs fname with
  | some data => some (data.map (fun r => nth r 0), data.map (fun r => nth r 1))
  | none => none

/-- The per-atom entry of the `analysis_results` dict built by
`analyze_pdos_contributions`. -/
structure PdosResult where
  valence_contribution : ℚ
  conduction_contribution : ℚ
  total_contribution : ℚ
  valence_peak_energy : ℚ
  conduction_peak_energy : ℚ
  max_pdos : ℚ
  deriving DecidableEq

/-- The body of `analyze_pdos_contributions` for one curve:
`fermi_idx = np.argmin(np.abs(energy))`, trapezoidal contributions of
`pdos[:fermi_idx]` and `pdos[fermi_idx:]`, peak positions through `np.argmax`
on the same slices (`np.argmax` raises on an empty slice, hence `none`), and
`max_pdos = np.max(pdos)`. -/
def analyze_pdos_contributions (energy pdos : List ℚ) : Option PdosResult :=
  match np_argmin (energy.map (fun e => |e|)) with
  | none => none
  | some fermi_idx =>
    match np_argmax (pdos.take fermi_idx), np_argmax (pdos.drop fermi_idx), npMax pdos with
    | some valence_peak_idx, some conduction_peak_rel, some max_pdos =>
      some { valence_contribution := trapz (pdos.take fermi_idx) (energy.take fermi_idx)
             conduction_contribution := trapz (pdos.drop fermi_idx) (energy.drop fermi_idx)
             total_contribution := trapz (pdos.take fermi_idx) (energy.take fermi_idx) +
               trapz (pdos.drop fermi_idx) (energy.drop fermi_idx)
             valence_peak_energy := nth energy valence_peak_idx
             conduction_peak_energy := nth energy (fermi_idx + conduction_peak_rel)
             max_pdos := max_pdos }
    | _, _, _ => none

end qe_pdos_analysis

/-! ### qe_pdos_simple.py -/

namespace qe_pdos_simple

/-- `data_loader` of the simple PDOS script: it calls `np.loadtxt` with no
`try`/`except` whatsoever, so a missing or unparsable file propagates the
exception to the caller, modelled as `Except.error ()`. -/
def data_loader (fs : FileSys) (fname : String) : Except Unit (List ℚ × List ℚ) :=
  match fs fname with
  | some data => Except.ok (data.map (fun r => nth r 0), data.map (fun r => nth r 1))
  | none => Except.error ()

end qe_pdos_simple

/-! ### qe_soc_analysis.py -/

namespace qe_soc_analysis

/-- `read_soc_energies`: guarded loader, identical in shape to
`read_band_structure`. -/
def read_soc_energies (fs : FileSys) (filename : String) :
    Option (List ℚ × List (List ℚ)) :=
  match fs filename with
  | some data => some (data.map (fun r => nth r 0), data.map (fun r => r.drop 1))
  | none => none

/-- Exact shape equality of two 2-D tables (the case in which numpy performs a
plain element-wise subtraction; a non-broadcastable mismatch raises). -/
def sameShape : List (List ℚ) → List (List ℚ) → Bool
  | [], [] => true
  | r :: rs, s :: ss => r.length == s.length && sameShape rs ss
  | _, _ => false

/-- Element-wise `soc_energies - no_soc_energies`; `none` models the raise on
a shape mismatch. -/
def elemSub (a b : List (List ℚ)) : Option (List (List ℚ)) :=
  if sameShape a b then some (List.zipWith (List.zipWith (fun u v => u - v)) a b) else none

/-- `compare_with_without_soc`: if either input is the `None` sentinel the
function returns `None` immediately; otherwise it forms the element-wise
difference and reports `np.mean(np.abs(diff))` and `np.max(np.abs(diff))`.
`Except.error ()` models the uncaught exceptions (shape mismatch, empty-array
`np.max` reduction); `Except.ok none` is the graceful `None` return. -/
def compare_with_without_soc (soc_energies no_soc_energies : Option (List (List ℚ))) :
    Except Unit (Option (ℚ × ℚ)) :=
  match soc_energies, no_soc_energies with
  | some se, some nse =>
    match elemSub se nse with
    | none => Except.error ()
    | some energy_diff =>
      match npMax ((energy_diff.flatten).map (fun q => |q|)) with
      | none => Except.error ()
      | some max_splitting =>
        Except.ok (some (npMean ((energy_diff.flatten).map (fun q => |q|)), max_splitting))
  | _, _ => Except.ok none

end qe_soc_analysis

/-! ### Helper facts used by several claim proofs -/

theorem np_argmax_eq_some (l : List ℚ) (h : l ≠ []) : ∃ j, np_argmax l = some j := by
  cases l with
  | nil => exact absurd rfl h
  | cons a as => exact ⟨argmaxGo as a 0 1, rfl⟩

/-! ### Claim C1 -/

open qe_band_analysis in
/-- Claim C1: for every 2-D band-energy array with at least one entry in a
column strictly below the split index 20 and at least one entry in a column
at/above it, `analyze_band_gap_from_bands` returns
(minimum over the at/above slice) minus (maximum over the below slice), where
maximum and minimum are characterised by membership and the usual bounds; and
on the literal valence block `[[-1, -1/2]]` next to the conduction block
`[[1/5, 3/10]]` (so split index 2 in the same gap computation `bandGapSplit`)
it yields max(valence) = -1/2, min(conduction) = 1/5 and gap 7/10. -/
theorem c1_gap_finder :
    (∀ e : List (List ℚ), sliceBelow e 20 ≠ [] → sliceFrom e 20 ≠ [] →
      ∃ vb cb, npMax (sliceBelow e 20) = some vb ∧ npMin (sliceFrom e 20) = some cb ∧
        analyze_band_gap_from_bands e = some (cb - vb) ∧
        vb ∈ sliceBelow e 20 ∧ (∀ a ∈ sliceBelow e 20, a ≤ vb) ∧
        cb ∈ sliceFrom e 20 ∧ (∀ a ∈ sliceFrom e 20, cb ≤ a)) ∧
    (npMax (sliceBelow [[-1, -1/2, 1/5, 3/10]] 2) = some (-1/2) ∧
     npMin (sliceFrom [[-1, -1/2, 1/5, 3/10]] 2) = some (1/5) ∧
     bandGapSplit [[-1, -1/2, 1/5, 3/10]] 2 = some (7/10)) := by
  constructor
  · intro e h1 h2
    obtain ⟨vb, hvb, hvbmem, hvble⟩ := npMax_spec (sliceBelow e 20) h1
    obtain ⟨cb, hcb, hcbmem, hcble⟩ := npMin_spec (sliceFrom e 20) h2
    refine ⟨vb, cb, hvb, hcb, ?_, hvbmem, hvble, hcbmem, hcble⟩
    simp only [analyze_band_gap_from_bands, bandGapSplit, hvb, hcb]
  · refine ⟨?_, ?_, ?_⟩
    · norm_num [sliceBelow, npMax]
    · norm_num [sliceFrom, npMin]
    · norm_num [bandGapSplit, sliceBelow, sliceFrom, npMax, npMin]

open qe_band_analysis in
/-- Witness for C1 at a band table with one k-point row of 21 zero energies. -/
theorem c1_gap_finder_witness :
    ∃ vb cb, npMax (sliceBelow [List.replicate 21 (0 : ℚ)] 20) = some vb ∧
      npMin (sliceFrom [List.replicate 21 (0 : ℚ)] 20) = some cb ∧
      analyze_band_gap_from_bands [List.replicate 21 (0 : ℚ)] = some (cb - vb) ∧
      vb ∈ sliceBelow [List.replicate 21 (0 : ℚ)] 20 ∧
      (∀ a ∈ sliceBelow [List.replicate 21 (0 : ℚ)] 20, a ≤ vb) ∧
      cb ∈ sliceFrom [List.replicate 21 (0 : ℚ)] 20 ∧
      (∀ a ∈ sliceFrom [List.replicate 21 (0 : ℚ)] 20, cb ≤ a) :=
  c1_gap_finder.1 [List.replicate 21 (0 : ℚ)]
    (by simp [qe_band_analysis.sliceBelow, List.take_replicate])
    (by simp [qe_band_analysis.sliceFrom, List.drop_replicate])

/-! ### Claim C7 -/

open qe_band_analysis in
/-- Claim C7: under the precondition that both slices of the split at column
20 are inhabited, the gap finder's empty-reduction error branch is
unreachable (the result is `some`); when the at/above slice is empty (split
index at or beyond the column count), the computation hits the empty
`np.min` reduction and raises, modelled as `none`. -/
theorem c7_gap_finder_preconditions :
    (∀ e : List (List ℚ), sliceBelow e 20 ≠ [] → sliceFrom e 20 ≠ [] →
      (analyze_band_gap_from_bands e).isSome = true) ∧
    (∀ e : List (List ℚ), sliceFrom e 20 = [] →
      analyze_band_gap_from_bands e = none) := by
  constructor
  · intro e h1 h2
    obtain ⟨vb, hvb, -, -⟩ := npMax_spec (sliceBelow e 20) h1
    obtain ⟨cb, hcb, -, -⟩ := npMin_spec (sliceFrom e 20) h2
    simp [analyze_band_gap_from_bands, bandGapSplit, hvb, hcb]
  · intro e h
    have hmin : npMin (sliceFrom e 20) = none := by rw [h]; rfl
    cases hmax : npMax (sliceBelow e 20) <;>
      simp [analyze_band_gap_from_bands, bandGapSplit, hmax, hmin]

open qe_band_analysis in
/-- Witness for C7: the inhabited-slices case on a row of 21 zeros, and the
empty at/above case on a single row with one column. -/
theorem c7_gap_finder_preconditions_witness :
    (analyze_band_gap_from_bands [List.replicate 21 (0 : ℚ)]).isSome = true ∧
    analyze_band_gap_from_bands [[1]] = none :=
  ⟨c7_gap_finder_preconditions.1 [List.replicate 21 (0 : ℚ)]
    (by simp [qe_band_analysis.sliceBelow, List.take_replicate])
    (by simp [qe_band_analysis.sliceFrom, List.drop_replicate]),
   c7_gap_finder_preconditions.2 [[1]] (by simp [qe_band_analysis.sliceFrom])⟩

/-! ### Claim C3 (code bug) -/

/-- Claim C3 records the spec's guarded "degenerate curve" failure for a
zero-integral curve.  The source has no such guard: `analyze_phonon_properties`
divides by `total_states` unconditionally, so on the curve with
`frequency = [0, 1]`, `dos = [0, 0]` (trapezoidal integral 0) it still
produces a value triple — the division yields float nan junk in the source
(only a numpy runtime warning, no raised error), rendered here as the ℚ
division-by-zero junk value 0 — instead of an explicit error result. -/
theorem c3_zero_integral_division_unguarded :
    trapz [0, 0] [0, 1] = 0 ∧
    qe_phonon_analysis.analyze_phonon_properties [0, 1] [0, 0] = some (1, 0, 0) := by
  constructor
  · norm_num [trapz]
  · norm_num [qe_phonon_analysis.analyze_phonon_properties, npMax, trapz]

/-! ### Claim C9 -/

/-- Claim C9: when either input of `compare_with_without_soc` is the `None`
sentinel, the function returns `None` right away — no exception
(`Except.ok`, never `Except.error`) and, being a pure function of its
arguments, no state change. -/
theorem c9_differencer_none_passthrough :
    ∀ a b : Option (List (List ℚ)), a = none ∨ b = none →
      qe_soc_analysis.compare_with_without_soc a b = Except.ok none := by
  intro a b h
  rcases h with rfl | rfl
  · rfl
  · cases a <;> rfl

/-- Witness for C9 at a `None` first argument. -/
theorem c9_differencer_none_passthrough_witness :
    qe_soc_analysis.compare_with_without_soc none (some [[1]]) = Except.ok none :=
  c9_differencer_none_passthrough none (some [[1]]) (Or.inl rfl)

/-! ### Claim C6 (corrected) -/

/-- Counterexample to C6 as stated: the loader of `qe_pdos_simple.py` wraps
`np.loadtxt` in no `try`/`except` at all, so on a file system where
`atom_W_tot.dat` cannot be loaded it propagates the exception
(`Except.error ()`) to module level instead of returning the `(None, None)`
sentinel — "every curve loader in the repository returns the sentinel" is
false. -/
theorem c6_simple_loader_raises :
    qe_pdos_simple.data_loader (fun _ => none) "atom_W_tot.dat" = Except.error () := rfl

/-- Claim C6 (amended): every *guarded* curve loader — all of them except
`data_loader` in `qe_pdos_simple.py` — returns the `(None, None)` sentinel
(`none`) when the file is absent or unparsable, so the dependent analysis
steps (all under `if ... is not None`) are skipped without a crash. -/
theorem c6_guarded_loaders_return_sentinel :
    ∀ (fs : FileSys) (filename : String), fs filename = none →
      qe_band_analysis.read_band_structure fs filename = none ∧
      qe_pdos_analysis.data_loader fs filename = none ∧
      qe_phonon_analysis.read_phonon_dos fs filename = none ∧
      qe_phonon_analysis.read_phonon_modes fs filename = none ∧
      qe_soc_analysis.read_soc_energies fs filename = none := by
  intro fs filename h
  refine ⟨?_, ?_, ?_, ?_, ?_⟩
  · simp [qe_band_analysis.read_band_structure, h]
  · simp [qe_pdos_analysis.data_loader, h]
  · simp [qe_phonon_analysis.read_phonon_dos, h]
  · simp [qe_phonon_analysis.read_phonon_modes, h]
  · simp [qe_soc_analysis.read_soc_energies, h]

/-- Witness for amended C6 on the empty file system and the name `bands.dat`. -/
theorem c6_guarded_loaders_return_sentinel_witness :
    qe_band_analysis.read_band_structure (fun _ => none) "bands.dat" = none ∧
    qe_pdos_analysis.data_loader (fun _ => none) "bands.dat" = none ∧
    qe_phonon_analysis.read_phonon_dos (fun _ => none) "bands.dat" = none ∧
    qe_phonon_analysis.read_phonon_modes (fun _ => none) "bands.dat" = none ∧
    qe_soc_analysis.read_soc_energies (fun _ => none) "bands.dat" = none :=
  c6_guarded_loaders_return_sentinel (fun _ => none) "bands.dat" rfl

/-! ### Claim C2 -/

open qe_phonon_analysis in
/-- Claim C2: on a curve with at least two points and nonzero trapezoidal
integral, `analyze_phonon_properties` computes the unweighted integral as the
composite trapezoidal sum over the (possibly non-uniform) grid,
Σ (x[i+1]-x[i]) * (y[i]+y[i+1]) / 2, and returns the average frequency as
the trapezoidal integral of x·y divided by that unweighted integral. -/
theorem c2_weighted_integral_analyzer :
    ∀ frequency dos : List ℚ, dos.length = frequency.length →
      2 ≤ frequency.length → trapz dos frequency ≠ 0 →
      ∃ mf, npMax frequency = some mf ∧
        analyze_phonon_properties frequency dos = some
          (mf,
           (∑ i ∈ Finset.range (frequency.length - 1),
              (nth frequency (i + 1) - nth frequency i) *
                (nth frequency i * nth dos i +
                  nth frequency (i + 1) * nth dos (i + 1)) / 2) /
           (∑ i ∈ Finset.range (frequency.length - 1),
              (nth frequency (i + 1) - nth frequency i) *
                (nth dos i + nth dos (i + 1)) / 2),
           ∑ i ∈ Finset.range (frequency.length - 1),
              (nth frequency (i + 1) - nth frequency i) *
                (nth dos i + nth dos (i + 1)) / 2) := by
  intro f d hlen h2 hnz
  have hne : f ≠ [] := by
    intro hc
    rw [hc] at h2
    simp at h2
  obtain ⟨mf, hmax, -, -⟩ := npMax_spec f hne
  refine ⟨mf, hmax, ?_⟩
  have hwlen : (List.zipWith (fun a b => a * b) f d).length = f.length := by
    rw [List.length_zipWith, hlen, min_self]
  have hw : ∀ i ∈ Finset.range (f.length - 1),
      trapzTerm f (List.zipWith (fun a b => a * b) f d) i =
        (nth f (i + 1) - nth f i) *
          (nth f i * nth d i + nth f (i + 1) * nth d (i + 1)) / 2 := by
    intro i hi
    rw [Finset.mem_range] at hi
    have hi1 : i < f.length := by omega
    have hi2 : i + 1 < f.length := by omega
    simp only [trapzTerm]
    rw [nth_zipWith_mul f d i hi1 (by omega), nth_zipWith_mul f d (i + 1) hi2 (by omega)]
  simp only [analyze_phonon_properties, hmax]
  rw [trapz_eq_sum d f hlen, trapz_eq_sum (List.zipWith (fun a b => a * b) f d) f hwlen,
    Finset.sum_congr rfl hw]
  rfl

open qe_phonon_analysis in
/-- Witness for C2 on the two-point curve x = [0, 1], y = [1, 1]. -/
theorem c2_weighted_integral_analyzer_witness :
    ∃ mf, npMax [0, 1] = some mf ∧
      analyze_phonon_properties [0, 1] [1, 1] = some
        (mf,
         (∑ i ∈ Finset.range (([(0 : ℚ), 1] : List ℚ).length - 1),
            (nth [0, 1] (i + 1) - nth [0, 1] i) *
              (nth [0, 1] i * nth [1, 1] i + nth [0, 1] (i + 1) * nth [1, 1] (i + 1)) / 2) /
         (∑ i ∈ Finset.range (([(0 : ℚ), 1] : List ℚ).length - 1),
            (nth [0, 1] (i + 1) - nth [0, 1] i) *
              (nth [1, 1] i + nth [1, 1] (i + 1)) / 2),
         ∑ i ∈ Finset.range (([(0 : ℚ), 1] : List ℚ).length - 1),
            (nth [0, 1] (i + 1) - nth [0, 1] i) *
              (nth [1, 1] i + nth [1, 1] (i + 1)) / 2) :=
  c2_weighted_integral_analyzer [0, 1] [1, 1] rfl (by norm_num) (by norm_num [trapz])

/-! ### Claim C8 -/

/-- Claim C8: on a grid symmetric about 0 (x[i] = -x[n-1-i]) with symmetric
values (y[i] = y[n-1-i]), the x-weighted trapezoidal integral
`np.trapz(frequency * dos, frequency)` appearing in
`analyze_phonon_properties` is exactly 0 in exact arithmetic: each trapezoid
cancels against its mirror image. -/
theorem c8_symmetric_curve_weighted_integral_zero :
    ∀ x y : List ℚ, y.length = x.length →
      (∀ i, i < x.length → nth x i + nth x (x.length - 1 - i) = 0) →
      (∀ i, i < x.length → nth y i = nth y (x.length - 1 - i)) →
      trapz (List.zipWith (fun a b => a * b) x y) x = 0 := by
  intro x y hlen hx hy
  have hwlen : (List.zipWith (fun a b => a * b) x y).length = x.length := by
    rw [List.length_zipWith, hlen, min_self]
  rw [trapz_eq_sum (List.zipWith (fun a b => a * b) x y) x hwlen]
  have key : ∀ i ∈ Finset.range (x.length - 1),
      trapzTerm x (List.zipWith (fun a b => a * b) x y) (x.length - 1 - 1 - i) =
        -trapzTerm x (List.zipWith (fun a b => a * b) x y) i := by
    intro i hi
    rw [Finset.mem_range] at hi
    have hn2 : i + 2 ≤ x.length := by omega
    have e1 : x.length - 1 - 1 - i + 1 = x.length - 1 - i := by omega
    have e2 : x.length - 1 - (x.length - 1 - 1 - i) = i + 1 := by omega
    have h1 : i < x.length := by omega
    have h2 : i + 1 < x.length := by omega
    have h3 : x.length - 1 - 1 - i < x.length := by omega
    have h4 : x.length - 1 - i < x.length := by omega
    have hxa : nth x (x.length - 1 - i) = -nth x i := by
      have := hx i h1
      linarith
    have hxb : nth x (x.length - 1 - 1 - i) = -nth x (i + 1) := by
      have := hx (x.length - 1 - 1 - i) h3
      rw [e2] at this
      linarith
    have hya : nth y (x.length - 1 - i) = nth y i := (hy i h1).symm
    have hyb : nth y (x.length - 1 - 1 - i) = nth y (i + 1) := by
      have := hy (x.length - 1 - 1 - i) h3
      rw [e2] at this
      exact this
    simp only [trapzTerm, e1]
    rw [nth_zipWith_mul x y (x.length - 1 - 1 - i) h3 (by omega),
      nth_zipWith_mul x y (x.length - 1 - i) h4 (by omega),
      nth_zipWith_mul x y i h1 (by omega),
      nth_zipWith_mul x y (i + 1) h2 (by omega),
      hxa, hxb, hya, hyb]
    ring
  have hrefl := Finset.sum_range_reflect
    (fun i => trapzTerm x (List.zipWith (fun a b => a * b) x y) i) (x.length - 1)
  rw [Finset.sum_congr rfl key, Finset.sum_neg_distrib] at hrefl
  linarith

/-- Witness for C8 on the symmetric curve x = [-1, 0, 1], y = [2, 5, 2]. -/
theorem c8_symmetric_curve_weighted_integral_zero_witness :
    trapz (List.zipWith (fun a b => a * b) [-1, 0, 1] [2, 5, 2]) [-1, 0, 1] = 0 :=
  c8_symmetric_curve_weighted_integral_zero [-1, 0, 1] [2, 5, 2] rfl
    (by intro i hi; have h3 : i < 3 := by simpa using hi
        interval_cases i <;> norm_num [nth])
    (by intro i hi; have h3 : i < 3 := by simpa using hi
        interval_cases i <;> norm_num [nth])

/-! ### Claim C4 -/

open qe_pdos_analysis in
/-- Claim C4: with the Fermi index `f` computed as `np.argmin(np.abs(energy))`
(an index of an x-value closest to 0) and at least one point strictly below
`f`, `analyze_pdos_contributions` reports as valence peak the x-value of the
maximum y over the indices strictly below `f`, and as conduction peak the
x-value of the maximum y over the indices at/after `f`, first occurrence
winning on ties (every earlier candidate is strictly smaller); on
x = [-2, -1, 0, 1, 2], y = [1, 5, 2, 8, 3] (Fermi index 2) the valence peak
is at x = -1 and the conduction peak at x = 1. -/
theorem c4_peak_locator :
    (∀ energy pdos : List ℚ, pdos.length = energy.length →
      ∀ f, np_argmin (energy.map (fun e => |e|)) = some f → 1 ≤ f →
      ∃ r, analyze_pdos_contributions energy pdos = some r ∧
        f < energy.length ∧
        (∀ i, i < energy.length → |nth energy f| ≤ |nth energy i|) ∧
        (∃ j, j < f ∧ r.valence_peak_energy = nth energy j ∧
          (∀ i, i < f → nth pdos i ≤ nth pdos j) ∧
          (∀ i, i < j → nth pdos i < nth pdos j)) ∧
        (∃ k, f ≤ k ∧ k < energy.length ∧ r.conduction_peak_energy = nth energy k ∧
          (∀ i, f ≤ i → i < energy.length → nth pdos i ≤ nth pdos k) ∧
          (∀ i, f ≤ i → i < k → nth pdos i < nth pdos k))) ∧
    analyze_pdos_contributions [-2, -1, 0, 1, 2] [1, 5, 2, 8, 3] =
      some { valence_contribution := 3
             conduction_contribution := 21 / 2
             total_contribution := 27 / 2
             valence_peak_energy := -1
             conduction_peak_energy := 1
             max_pdos := 8 } := by
  constructor
  · intro energy pdos hlen f hf h1f
    obtain ⟨hflt, hfle, -⟩ := np_argmin_spec (energy.map (fun e => |e|)) f hf
    rw [List.length_map] at hflt
    have hmin : ∀ i, i < energy.length → |nth energy f| ≤ |nth energy i| := by
      intro i hi
      have h := hfle i (by rw [List.length_map]; exact hi)
      rw [nth_map_abs energy f hflt, nth_map_abs energy i hi] at h
      exact h
    have hfp : f < pdos.length := by omega
    have hpt : (pdos.take f).length = f := by
      rw [List.length_take]
      omega
    have hptne : pdos.take f ≠ [] := by
      apply List.ne_nil_of_length_pos
      omega
    have hpd : (pdos.drop f).length = pdos.length - f := List.length_drop f pdos
    have hpdne : pdos.drop f ≠ [] := by
      apply List.ne_nil_of_length_pos
      omega
    obtain ⟨vp, hvp⟩ := np_argmax_eq_some (pdos.take f) hptne
    obtain ⟨cp, hcp⟩ := np_argmax_eq_some (pdos.drop f) hpdne
    obtain ⟨mp, hmp, -, -⟩ := npMax_spec pdos (List.ne_nil_of_length_pos (by omega))
    have hana : analyze_pdos_contributions energy pdos = some
        { valence_contribution := trapz (pdos.take f) (energy.take f)
          conduction_contribution := trapz (pdos.drop f) (energy.drop f)
          total_contribution := trapz (pdos.take f) (energy.take f) +
            trapz (pdos.drop f) (energy.drop f)
          valence_peak_energy := nth energy vp
          conduction_peak_energy := nth energy (f + cp)
          max_pdos := mp } := by
      simp only [analyze_pdos_contributions, hf, hvp, hcp, hmp]
    refine ⟨_, hana, hflt, hmin, ?_, ?_⟩
    · obtain ⟨hvplt, hvple, hvpfirst⟩ := np_argmax_spec (pdos.take f) vp hvp
      rw [hpt] at hvplt
      refine ⟨vp, hvplt, rfl, ?_, ?_⟩
      · intro i hi
        have h := hvple i (by rw [hpt]; exact hi)
        rw [nth_take pdos f i hi, nth_take pdos f vp hvplt] at h
        exact h
      · intro i hi
        have h := hvpfirst i hi
        rw [nth_take pdos f i (by omega), nth_take pdos f vp hvplt] at h
        exact h
    · obtain ⟨hcplt, hcple, hcpfirst⟩ := np_argmax_spec (pdos.drop f) cp hcp
      rw [hpd] at hcplt
      refine ⟨f + cp, by omega, by omega, rfl, ?_, ?_⟩
      · intro i hif hilen
        have h := hcple (i - f) (by rw [hpd]; omega)
        rw [nth_drop, nth_drop] at h
        have heq : f + (i - f) = i := by omega
        rw [heq] at h
        exact h
      · intro i hif hik
        have h := hcpfirst (i - f) (by omega)
        rw [nth_drop, nth_drop] at h
        have heq : f + (i - f) = i := by omega
        rw [heq] at h
        exact h
  · norm_num [qe_pdos_analysis.analyze_pdos_contributions, np_argmin, argminGo,
      np_argmax, argmaxGo, npMax, trapz, nth]

open qe_pdos_analysis in
/-- Witness for C4 on the spec's example curve (Fermi index 2). -/
theorem c4_peak_locator_witness :
    ∃ r, analyze_pdos_contributions [-2, -1, 0, 1, 2] [1, 5, 2, 8, 3] = some r ∧
      2 < ([(-2 : ℚ), -1, 0, 1, 2] : List ℚ).length ∧
      (∀ i, i < ([(-2 : ℚ), -1, 0, 1, 2] : List ℚ).length →
        |nth [-2, -1, 0, 1, 2] 2| ≤ |nth [-2, -1, 0, 1, 2] i|) ∧
      (∃ j, j < 2 ∧ r.valence_peak_energy = nth [-2, -1, 0, 1, 2] j ∧
        (∀ i, i < 2 → nth [1, 5, 2, 8, 3] i ≤ nth [1, 5, 2, 8, 3] j) ∧
        (∀ i, i < j → nth [1, 5, 2, 8, 3] i < nth [1, 5, 2, 8, 3] j)) ∧
      (∃ k, 2 ≤ k ∧ k < ([(-2 : ℚ), -1, 0, 1, 2] : List ℚ).length ∧
        r.conduction_peak_energy = nth [-2, -1, 0, 1, 2] k ∧
        (∀ i, 2 ≤ i → i < ([(-2 : ℚ), -1, 0, 1, 2] : List ℚ).length →
          nth [1, 5, 2, 8, 3] i ≤ nth [1, 5, 2, 8, 3] k) ∧
        (∀ i, 2 ≤ i → i < k → nth [1, 5, 2, 8, 3] i < nth [1, 5, 2, 8, 3] k)) :=
  c4_peak_locator.1 [-2, -1, 0, 1, 2] [1, 5, 2, 8, 3] rfl 2
    (by norm_num [np_argmin, argminGo]) (by norm_num)

/-! ### Claim C10 -/

open qe_pdos_analysis in
/-- Claim C10: with Fermi index `f` and at least two points on each side, the
reported `total_contribution` (valence plus conduction trapezoidal integrals,
over `[:f]` and `[f:]`) equals the trapezoidal integral of the whole curve
minus the single trapezoid on the segment from index `f-1` to `f`: the
segment straddling the Fermi index is excluded from the reported total. -/
theorem c10_total_contribution_excludes_straddle :
    ∀ energy pdos : List ℚ, pdos.length = energy.length →
    ∀ f, np_argmin (energy.map (fun e => |e|)) = some f →
      2 ≤ f → f + 2 ≤ energy.length →
    ∃ r, analyze_pdos_contributions energy pdos = some r ∧
      r.total_contribution = trapz pdos energy -
        (nth energy f - nth energy (f - 1)) * (nth pdos (f - 1) + nth pdos f) / 2 := by
  intro energy pdos hlen f hf h2f hfn
  have hfp : f < pdos.length := by omega
  have hfe : f < energy.length := by omega
  have hptne : pdos.take f ≠ [] := by
    apply List.ne_nil_of_length_pos
    rw [List.length_take]
    omega
  have hpdne : pdos.drop f ≠ [] := by
    apply List.ne_nil_of_length_pos
    rw [List.length_drop]
    omega
  obtain ⟨vp, hvp⟩ := np_argmax_eq_some (pdos.take f) hptne
  obtain ⟨cp, hcp⟩ := np_argmax_eq_some (pdos.drop f) hpdne
  obtain ⟨mp, hmp, -, -⟩ := npMax_spec pdos (List.ne_nil_of_length_pos (by omega))
  have hana : analyze_pdos_contributions energy pdos = some
      { valence_contribution := trapz (pdos.take f) (energy.take f)
        conduction_contribution := trapz (pdos.drop f) (energy.drop f)
        total_contribution := trapz (pdos.take f) (energy.take f) +
          trapz (pdos.drop f) (energy.drop f)
        valence_peak_energy := nth energy vp
        conduction_peak_energy := nth energy (f + cp)
        max_pdos := mp } := by
    simp only [analyze_pdos_contributions, hf, hvp, hcp, hmp]
  refine ⟨_, hana, ?_⟩
  show trapz (pdos.take f) (energy.take f) + trapz (pdos.drop f) (energy.drop f) =
    trapz pdos energy -
      (nth energy f - nth energy (f - 1)) * (nth pdos (f - 1) + nth pdos f) / 2
  have htakelen : (energy.take f).length = f := by
    rw [List.length_take]
    omega
  have hval : trapz (pdos.take f) (energy.take f) =
      ∑ i ∈ Finset.range (f - 1), trapzTerm energy pdos i := by
    rw [trapz_eq_sum (pdos.take f) (energy.take f)
      (by rw [List.length_take, List.length_take]; omega), htakelen]
    refine Finset.sum_congr rfl ?_
    intro i hi
    rw [Finset.mem_range] at hi
    simp only [trapzTerm]
    rw [nth_take energy f i (by omega), nth_take energy f (i + 1) (by omega),
      nth_take pdos f i (by omega), nth_take pdos f (i + 1) (by omega)]
  have hdroplen : (energy.drop f).length = energy.length - f := List.length_drop f energy
  have hcond : trapz (pdos.drop f) (energy.drop f) =
      ∑ i ∈ Finset.range (energy.length - f - 1), trapzTerm energy pdos (f + i) := by
    rw [trapz_eq_sum (pdos.drop f) (energy.drop f)
      (by rw [List.length_drop, List.length_drop]; omega), hdroplen]
    have he : energy.length - f - 1 = energy.length - f - 1 := rfl
    refine Finset.sum_congr rfl ?_
    intro i hi
    simp only [trapzTerm]
    rw [nth_drop energy f i, nth_drop energy f (i + 1), nth_drop pdos f i,
      nth_drop pdos f (i + 1)]
    have h1 : f + (i + 1) = f + i + 1 := by omega
    rw [h1]
  have hfull : trapz pdos energy =
      ∑ i ∈ Finset.range (energy.length - 1), trapzTerm energy pdos i :=
    trapz_eq_sum pdos energy hlen
  have hsplit1 : ∑ i ∈ Finset.range (energy.length - 1), trapzTerm energy pdos i =
      ∑ i ∈ Finset.Ico 0 (f - 1), trapzTerm energy pdos i +
        ∑ i ∈ Finset.Ico (f - 1) (energy.length - 1), trapzTerm energy pdos i := by
    rw [Finset.range_eq_Ico]
    exact (Finset.sum_Ico_consecutive (fun i => trapzTerm energy pdos i)
      (Nat.zero_le (f - 1)) (by omega)).symm
  have hsplit2 : ∑ i ∈ Finset.Ico (f - 1) (energy.length - 1), trapzTerm energy pdos i =
      trapzTerm energy pdos (f - 1) +
        ∑ i ∈ Finset.Ico f (energy.length - 1), trapzTerm energy pdos i := by
    have hlt : f - 1 < energy.length - 1 := by omega
    have h := Finset.sum_eq_sum_Ico_succ_bot hlt (fun i => trapzTerm energy pdos i)
    have hsucc : f - 1 + 1 = f := by omega
    rw [hsucc] at h
    exact h
  have hsplit3 : ∑ i ∈ Finset.Ico f (energy.length - 1), trapzTerm energy pdos i =
      ∑ i ∈ Finset.range (energy.length - f - 1), trapzTerm energy pdos (f + i) := by
    have h := Finset.sum_Ico_eq_sum_range (fun i => trapzTerm energy pdos i)
      f (energy.length - 1)
    have he : energy.length - 1 - f = energy.length - f - 1 := by omega
    rw [he] at h
    exact h
  have hterm : trapzTerm energy pdos (f - 1) =
      (nth energy f - nth energy (f - 1)) * (nth pdos (f - 1) + nth pdos f) / 2 := by
    simp only [trapzTerm]
    have hsucc : f - 1 + 1 = f := by omega
    rw [hsucc]
  rw [hval, hcond, hfull, hsplit1, hsplit2, hsplit3, hterm, Finset.range_eq_Ico]
  ring

open qe_pdos_analysis in
/-- Witness for C10 on the spec's example curve, Fermi index 2. -/
theorem c10_total_contribution_excludes_straddle_witness :
    ∃ r, analyze_pdos_contributions [-2, -1, 0, 1, 2] [1, 5, 2, 8, 3] = some r ∧
      r.total_contribution = trapz [1, 5, 2, 8, 3] [-2, -1, 0, 1, 2] -
        (nth [-2, -1, 0, 1, 2] 2 - nth [-2, -1, 0, 1, 2] 1) *
          (nth [1, 5, 2, 8, 3] 1 + nth [1, 5, 2, 8, 3] 2) / 2 :=
  c10_total_contribution_excludes_straddle [-2, -1, 0, 1, 2] [1, 5, 2, 8, 3] rfl 2
    (by norm_num [np_argmin, argminGo]) (by norm_num) (by norm_num)

/-! ### Claim C5 helpers -/

theorem sameShape_self (a : List (List ℚ)) : qe_soc_analysis.sameShape a a = true := by
  induction a with
  | nil => rfl
  | cons r rs ih => simp [qe_soc_analysis.sameShape, ih]

theorem sameShape_cons (r s : List ℚ) (rs ss : List (List ℚ))
    (h : qe_soc_analysis.sameShape (r :: rs) (s :: ss) = true) :
    r.length = s.length ∧ qe_soc_analysis.sameShape rs ss = true := by
  simpa [qe_soc_analysis.sameShape] using h

theorem row_sub_nth (r s : List ℚ) (h : r.length = s.length) (j : ℕ) :
    nth (List.zipWith (fun u v => u - v) r s) j = nth r j - nth s j := by
  induction r generalizing s j with
  | nil =>
    cases s with
    | nil => simp [nth_nil]
    | cons b bs => simp at h
  | cons a as ih =>
    cases s with
    | nil => simp at h
    | cons b bs =>
      cases j with
      | zero => rfl
      | succ m =>
        have h2 : as.length = bs.length := by simpa using h
        have hz : List.zipWith (fun u v => u - v) (a :: as) (b :: bs) =
            (a - b) :: List.zipWith (fun u v => u - v) as bs := rfl
        rw [hz, nth_cons_succ, nth_cons_succ, nth_cons_succ, ih bs h2]

theorem table_sub_nth (a b : List (List ℚ)) (h : qe_soc_analysis.sameShape a b = true)
    (i j : ℕ) :
    nth ((List.zipWith (List.zipWith (fun u v => u - v)) a b).getD i []) j =
      nth (a.getD i []) j - nth (b.getD i []) j := by
  induction a generalizing b i with
  | nil =>
    cases b with
    | nil => simp [nth_nil]
    | cons s ss => simp [qe_soc_analysis.sameShape] at h
  | cons r rs ih =>
    cases b with
    | nil => simp [qe_soc_analysis.sameShape] at h
    | cons s ss =>
      obtain ⟨hrow, hrest⟩ := sameShape_cons r s rs ss h
      cases i with
      | zero => exact row_sub_nth r s hrow j
      | succ m => exact ih ss hrest m

theorem table_sub_flatten_length (a b : List (List ℚ))
    (h : qe_soc_analysis.sameShape a b = true) :
    (List.zipWith (List.zipWith (fun u v => u - v)) a b).flatten.length =
      a.flatten.length := by
  induction a generalizing b with
  | nil =>
    cases b with
    | nil => rfl
    | cons s ss => simp [qe_soc_analysis.sameShape] at h
  | cons r rs ih =>
    cases b with
    | nil => simp [qe_soc_analysis.sameShape] at h
    | cons s ss =>
      obtain ⟨hrow, hrest⟩ := sameShape_cons r s rs ss h
      simp [List.length_zipWith, hrow, ih ss hrest]

theorem zipWith_sub_self (r : List ℚ) :
    List.zipWith (fun u v => u - v) r r = List.replicate r.length 0 := by
  induction r with
  | nil => rfl
  | cons a as ih => simp [List.replicate_succ, ih]

theorem map_abs_flatten_sub_self (a : List (List ℚ)) :
    ((List.zipWith (List.zipWith (fun u v => u - v)) a a).flatten).map (fun q => |q|) =
      List.replicate a.flatten.length 0 := by
  induction a with
  | nil => rfl
  | cons r rs ih =>
    have hz : List.zipWith (List.zipWith (fun u v => u - v)) (r :: rs) (r :: rs) =
        List.zipWith (fun u v => u - v) r r ::
          List.zipWith (List.zipWith (fun u v => u - v)) rs rs := rfl
    rw [hz, List.flatten_cons, List.map_append, ih, zipWith_sub_self, List.map_replicate,
      abs_zero, List.flatten_cons, List.length_append, List.replicate_add]

theorem foldl_max_replicate_zero (k : ℕ) :
    (List.replicate k (0 : ℚ)).foldl max 0 = 0 := by
  induction k with
  | zero => rfl
  | succ n ih => simp [List.replicate_succ, ih]

theorem npMax_replicate_zero (k : ℕ) :
    npMax (List.replicate (k + 1) (0 : ℚ)) = some 0 := by
  rw [List.replicate_succ]
  show some ((List.replicate k (0 : ℚ)).foldl max 0) = some 0
  rw [foldl_max_replicate_zero]

theorem npMean_replicate_zero (k : ℕ) : npMean (List.replicate k (0 : ℚ)) = 0 := by
  simp [npMean, List.sum_replicate]

/-! ### Claim C5 (corrected) -/

/-- Counterexample to C5 as stated: the claim quantifies over *every* pair of
same-shaped arrays and every array `A`, but on the empty (same-shaped) pair
the source crashes — `np.max(np.abs(diff))` is an empty reduction and raises
`ValueError` — instead of reporting mean 0 and max 0. -/
theorem c5_differencer_empty_raises :
    qe_soc_analysis.compare_with_without_soc (some []) (some []) = Except.error () := rfl

open qe_soc_analysis in
/-- Claim C5 (amended): for same-shaped arrays with at least one entry,
`compare_with_without_soc` forms the element-wise difference `A - B` and
reports `np.mean(|diff|)` (sum of absolute differences over their count) and
`np.max(|diff|)` (characterised as an attained upper bound); and for every
nonempty `A`, comparing `A` with itself yields mean 0 and max 0. -/
theorem c5_differencer :
    (∀ a b : List (List ℚ), sameShape a b = true → a.flatten ≠ [] →
      ∃ d m, elemSub a b = some d ∧
        (∀ i j : ℕ, nth (d.getD i []) j = nth (a.getD i []) j - nth (b.getD i []) j) ∧
        compare_with_without_soc (some a) (some b) = Except.ok (some
          (((d.flatten.map (fun q => |q|)).sum / (d.flatten.map (fun q => |q|)).length),
           m)) ∧
        m ∈ d.flatten.map (fun q => |q|) ∧
        (∀ q ∈ d.flatten.map (fun q => |q|), q ≤ m)) ∧
    (∀ a : List (List ℚ), a.flatten ≠ [] →
      compare_with_without_soc (some a) (some a) = Except.ok (some (0, 0))) := by
  constructor
  · intro a b hsh hne
    have hd : elemSub a b = some (List.zipWith (List.zipWith (fun u v => u - v)) a b) := by
      simp [elemSub, hsh]
    have hflatne : (List.zipWith (List.zipWith (fun u v => u - v)) a b).flatten.map
        (fun q => |q|) ≠ [] := by
      apply List.ne_nil_of_length_pos
      rw [List.length_map, table_sub_flatten_length a b hsh]
      have : a.flatten.length ≠ 0 := fun hc => hne (List.length_eq_zero.mp hc)
      omega
    obtain ⟨m, hm, hmem, hle⟩ := npMax_spec _ hflatne
    refine ⟨_, m, hd, table_sub_nth a b hsh, ?_, hmem, hle⟩
    simp only [compare_with_without_soc, hd, hm, npMean]
  · intro a hne
    have hd : elemSub a a = some (List.zipWith (List.zipWith (fun u v => u - v)) a a) := by
      simp [elemSub, sameShape_self]
    have hlen : a.flatten.length ≠ 0 := fun hc => hne (List.length_eq_zero.mp hc)
    obtain ⟨k, hk⟩ : ∃ k, a.flatten.length = k + 1 := ⟨a.flatten.length - 1, by omega⟩
    simp only [compare_with_without_soc, hd, map_abs_flatten_sub_self, hk,
      npMax_replicate_zero, npMean_replicate_zero]

open qe_soc_analysis in
/-- Witness for amended C5: the differencer applied to the one-row table
`[[1, 2]]` against itself. -/
theorem c5_differencer_witness :
    compare_with_without_soc (some [[1, 2]]) (some [[1, 2]]) = Except.ok (some (0, 0)) :=
  c5_differencer.2 [[1, 2]] (by simp)
